import Mathlib

/-!
Verification of the voicevox_engine TTS pipeline router
(`voicevox_engine/app/routers/tts_pipeline.py`) against its specification.

The router code under `src/` is embedded directly.  The kana grammar
(`kana_converter.py`), the waveform concatenation utility
(`connect_base64_waves.py`) and the TTS engine internals are collaborators
whose code is not part of the source tree here; they are modelled from the
specification (each such definition carries a `Modelled from the spec:`
doc comment).
-/

namespace Voicevox

instance {ε α : Type} [DecidableEq ε] [DecidableEq α] : DecidableEq (Except ε α) := fun
  | .error e, .error f =>
    if h : e = f then isTrue (by rw [h]) else isFalse (by simp [h])
  | .error _, .ok _ => isFalse (by simp)
  | .ok _, .error _ => isFalse (by simp)
  | .ok a, .ok b =>
    if h : a = b then isTrue (by rw [h]) else isFalse (by simp [h])

/-- Phonetic unit (model.Mora): kana text, optional consonant phoneme with
its duration, vowel phoneme with its duration, and pitch (0 = unvoiced).
Float-valued fields are modelled as rationals. -/
structure Mora where
  text : String
  consonant : Option String
  consonant_length : Option ℚ
  vowel : String
  vowel_length : ℚ
  pitch : ℚ
  deriving DecidableEq, Repr

/-- Accent phrase (model.AccentPhrase): ordered morae, 1-based accent
nucleus index, optional trailing pause mora, interrogative flag. -/
structure AccentPhrase where
  moras : List Mora
  accent : Nat
  pause_mora : Option Mora
  is_interrogative : Bool
  deriving DecidableEq, Repr

/-- Grammar errors of the phonetic-kana parser (spec §4.1 error kinds),
as a closed set of tagged variants carrying segment / fragment / offset
context. -/
inductive GrammarError where
  | missingAccentNucleus (segment : String)
  | multipleAccentNuclei (segment : String)
  | unknownMoraToken (fragment : String) (offset : Nat)
  | emptySegment (offset : Nat)
  deriving DecidableEq, Repr

/-- Modelled from the spec: representative single-character katakana mora
table (the full lookup table lives in `kana_converter.py`, which is not
under `src/`).  Each entry maps a kana character to its optional consonant
phoneme and its vowel phoneme. -/
def moraTable : List (Char × Option String × String) :=
  [('ア', none, "a"), ('イ', none, "i"), ('ウ', none, "u"),
   ('エ', none, "e"), ('オ', none, "o"),
   ('カ', some "k", "a"), ('キ', some "k", "i"), ('ク', some "k", "u"),
   ('ケ', some "k", "e"), ('コ', some "k", "o"),
   ('サ', some "s", "a"), ('シ', some "sh", "i"), ('ス', some "s", "u"),
   ('セ', some "s", "e"), ('ソ', some "s", "o"),
   ('タ', some "t", "a"), ('チ', some "ch", "i"), ('ツ', some "ts", "u"),
   ('テ', some "t", "e"), ('ト', some "t", "o"),
   ('ナ', some "n", "a"), ('ニ', some "n", "i"), ('ヌ', some "n", "u"),
   ('ネ', some "n", "e"), ('ノ', some "n", "o"),
   ('ハ', some "h", "a"), ('ヒ', some "h", "i"), ('フ', some "f", "u"),
   ('ヘ', some "h", "e"), ('ホ', some "h", "o"),
   ('マ', some "m", "a"), ('ミ', some "m", "i"), ('ム', some "m", "u"),
   ('メ', some "m", "e"), ('モ', some "m", "o"),
   ('ヤ', some "y", "a"), ('ユ', some "y", "u"), ('ヨ', some "y", "o"),
   ('ラ', some "r", "a"), ('リ', some "r", "i"), ('ル', some "r", "u"),
   ('レ', some "r", "e"), ('ロ', some "r", "o"),
   ('ワ', some "w", "a"), ('ヲ', some "w", "o"), ('ン', none, "N")]

/-- Look a kana character up in the mora table. -/
def lookupKana (c : Char) : Option (Option String × String) :=
  (moraTable.find? (fun e => e.1 = c)).map (fun e => e.2)

/-- Modelled from the spec: the mora produced for kana character `c`.
The unvoicing marker forces pitch to the unvoiced sentinel 0; a voiced
mora gets the nonzero placeholder pitch 1 so the pitch-0-iff-unvoiced
invariant of the data model holds (actual pitch is filled in later by the
backend). Durations are placeholders (0). -/
def mkMora (c : Char) (cons : Option String) (vow : String) (unv : Bool) : Mora :=
  { text := String.mk [c]
    consonant := cons
    consonant_length := cons.map (fun _ => 0)
    vowel := vow
    vowel_length := 0
    pitch := if unv then 0 else 1 }

/-- Modelled from the spec: the single silence mora appended to a phrase
that is followed by the paused delimiter `、`. -/
def pauseMora : Mora :=
  { text := String.mk ['、']
    consonant := none
    consonant_length := none
    vowel := "sil"
    vowel_length := 0
    pitch := 0 }

/-- Modelled from the spec: the mora-level scanner of one notation segment
(`kana_converter.py` is not under `src/`).  `seg` is the full segment text,
used only in error messages; `pos` is the absolute offset in the input.
Returns the morae in order, the 1-based accent index if a nucleus marker
was seen, and the interrogative flag (a full-width question mark is legal
only as the final character of the segment). -/
def parseMoraeAux (seg : String) :
    List Char → Nat → List Mora → Option Nat →
    Except GrammarError (List Mora × Option Nat × Bool)
  | [], _, acc, accI => .ok (acc.reverse, accI, false)
  | c :: rest, pos, acc, accI =>
    if c = '？' then
      if rest.isEmpty then .ok (acc.reverse, accI, true)
      else .error (.unknownMoraToken (String.mk ['？']) pos)
    else if c = '\'' then
      match accI with
      | some _ => .error (.multipleAccentNuclei seg)
      | none =>
        if acc.isEmpty then .error (.unknownMoraToken (String.mk ['\'']) pos)
        else parseMoraeAux seg rest (pos + 1) acc (some acc.length)
    else if c = '_' then
      match rest with
      | [] => .error (.unknownMoraToken (String.mk ['_']) pos)
      | d :: rest2 =>
        match lookupKana d with
        | some (cons, vow) =>
          parseMoraeAux seg rest2 (pos + 2) (mkMora d cons vow true :: acc) accI
        | none => .error (.unknownMoraToken (String.mk [c, d]) pos)
    else
      match lookupKana c with
      | some (cons, vow) =>
        parseMoraeAux seg rest (pos + 1) (mkMora c cons vow false :: acc) accI
      | none => .error (.unknownMoraToken (String.mk [c]) pos)

/-- Modelled from the spec: parse one delimiter-separated segment into an
accent phrase.  `paused` records whether the segment was followed by the
paused delimiter `、`, in which case one silence mora is appended. -/
def parseSeg (cs : List Char) (pos : Nat) (paused : Bool) :
    Except GrammarError AccentPhrase :=
  match parseMoraeAux (String.mk cs) cs pos [] none with
  | .error e => .error e
  | .ok (ms, accI, intr) =>
    if ms.isEmpty then .error (.emptySegment pos)
    else
      match accI with
      | none => .error (.missingAccentNucleus (String.mk cs))
      | some a =>
        .ok { moras := ms
              accent := a
              pause_mora := if paused then some pauseMora else none
              is_interrogative := intr }

/-- Modelled from the spec: split the input into segments, each tagged
with whether its following delimiter was the paused one (`、`).  The final
segment carries `false`. -/
def splitSegAux : List Char → List Char → List (List Char × Bool)
  | [], cur => [(cur.reverse, false)]
  | c :: rest, cur =>
    if c = '/' then (cur.reverse, false) :: splitSegAux rest []
    else if c = '、' then (cur.reverse, true) :: splitSegAux rest []
    else splitSegAux rest (c :: cur)

/-- Modelled from the spec: parse a list of tagged segments, threading the
absolute offset (each delimiter occupies one character). -/
def parseSegs : List (List Char × Bool) → Nat → Except GrammarError (List AccentPhrase)
  | [], _ => .ok []
  | (cs, paused) :: rest, pos =>
    match parseSeg cs pos paused with
    | .error e => .error e
    | .ok p =>
      match parseSegs rest (pos + cs.length + 1) with
      | .error e => .error e
      | .ok ps => .ok (p :: ps)

/-- Modelled from the spec: `kana_converter.parse_kana` — parse an
AquesTalk-style phonetic string into accent phrases; empty input is a
parse error. -/
def parse_kana (s : String) : Except GrammarError (List AccentPhrase) :=
  if s.data = [] then .error (.emptySegment 0)
  else parseSegs (splitSegAux s.data []) 0

/-- Modelled from the spec: the characters serializing one mora — the
unvoicing marker `_` exactly when the pitch is the unvoiced sentinel 0,
then the kana text. -/
def moraChars (m : Mora) : List Char :=
  (if m.pitch = 0 then ['_'] else []) ++ m.text.data

/-- Modelled from the spec: the characters of a phrase body — each mora in
order with the accent-nucleus marker immediately after the `accent`-th
mora. -/
def bodyChars (ms : List Mora) (accent : Nat) : List Char :=
  (ms.take accent).flatMap moraChars ++ '\'' :: (ms.drop accent).flatMap moraChars

/-- Modelled from the spec: all characters of one serialized segment:
the body followed by the interrogative marker when the flag is set. -/
def segChars (p : AccentPhrase) : List Char :=
  bodyChars p.moras p.accent ++ (if p.is_interrogative then ['？'] else [])

/-- Modelled from the spec: characters of the full serialization; between
phrases the delimiter is `、` when the earlier phrase carries a pause mora
and `/` otherwise; no trailing delimiter. -/
def kanaChars : List AccentPhrase → List Char
  | [] => []
  | [p] => segChars p
  | p :: q :: rest =>
    segChars p ++ (if p.pause_mora.isSome then '、' else '/') :: kanaChars (q :: rest)

/-- Modelled from the spec: `kana_converter.create_kana` — total
serialization of accent phrases back to the phonetic string. -/
def create_kana (ps : List AccentPhrase) : String :=
  String.mk (kanaChars ps)

/-- Synthesis query (model.AudioQuery): accent phrases, global scale
parameters, output sampling rate / stereo flag, and the cached phonetic
serialization. -/
structure AudioQuery where
  accent_phrases : List AccentPhrase
  speedScale : ℚ
  pitchScale : ℚ
  intonationScale : ℚ
  volumeScale : ℚ
  prePhonemeLength : ℚ
  postPhonemeLength : ℚ
  outputSamplingRate : Nat
  outputStereo : Bool
  kana : String
  deriving DecidableEq, Repr

/-- Preset (preset.Preset): the fields the router reads — unique id, style
id and the AudioQuery scale parameters. -/
structure Preset where
  id : Int
  style_id : Nat
  speedScale : ℚ
  pitchScale : ℚ
  intonationScale : ℚ
  volumeScale : ℚ
  prePhonemeLength : ℚ
  postPhonemeLength : ℚ
  deriving DecidableEq, Repr

/-- The synthesis backend collaborators the router receives (TTSEngine and
CoreAdapter), as explicit dependency injection. -/
structure Env where
  create_accent_phrases : String → Nat → List AccentPhrase
  update_length_and_pitch : List AccentPhrase → Nat → List AccentPhrase
  synthesize_wave : AudioQuery → Nat → List ℚ
  default_sampling_rate : Nat

/-- Errors surfaced at the router boundary (the HTTPException raises of
tts_pipeline.py, plus the unguarded IndexError of /multi_synthesis). -/
inductive ConnectWavesError where
  | sampleRateMismatch
  | noInput
  deriving DecidableEq, Repr

inductive ApiError where
  | parseKanaBadRequest (e : GrammarError)
  | presetLoadFailed (msg : String)
  | presetNotFound
  | inconsistentSamplingRate
  | indexError
  | cancellationUnsupported
  | unknownVersion
  | connectWavesFailed (e : ConnectWavesError)
  deriving DecidableEq, Repr

/-- Embeds `audio_query` (POST /audio_query): backend text analysis, then
an AudioQuery with the default scale parameters, the backend default
sampling rate and the serialized phonetic string. -/
def audio_query (env : Env) (text : String) (style_id : Nat) : AudioQuery :=
  let phrases := env.create_accent_phrases text style_id
  { accent_phrases := phrases
    speedScale := 1
    pitchScale := 0
    intonationScale := 1
    volumeScale := 1
    prePhonemeLength := 1/10
    postPhonemeLength := 1/10
    outputSamplingRate := env.default_sampling_rate
    outputStereo := false
    kana := create_kana phrases }

/-- The for/break preset lookup of `audio_query_from_preset`: first preset
whose id matches, if any. -/
def findPreset : List Preset → Int → Option Preset
  | [], _ => none
  | p :: rest, pid => if p.id = pid then some p else findPreset rest pid

/-- Embeds `audio_query_from_preset` (POST /audio_query_from_preset).
`loaded` is the outcome of `preset_manager.load_presets()`. -/
def audio_query_from_preset (env : Env) (loaded : Except String (List Preset))
    (text : String) (preset_id : Int) : Except ApiError AudioQuery :=
  match loaded with
  | .error msg => .error (.presetLoadFailed msg)
  | .ok presets =>
    match findPreset presets preset_id with
    | none => .error .presetNotFound
    | some preset =>
      let phrases := env.create_accent_phrases text preset.style_id
      .ok { accent_phrases := phrases
            speedScale := preset.speedScale
            pitchScale := preset.pitchScale
            intonationScale := preset.intonationScale
            volumeScale := preset.volumeScale
            prePhonemeLength := preset.prePhonemeLength
            postPhonemeLength := preset.postPhonemeLength
            outputSamplingRate := env.default_sampling_rate
            outputStereo := false
            kana := create_kana phrases }

/-- Modelled from the spec: `TTSEngine.create_accent_phrases_from_kana`
(tts_engine.py is not under `src/`) — parses the phonetic string with the
grammar and refines mora timing via the backend; grammar errors
propagate. -/
def create_accent_phrases_from_kana (env : Env) (text : String) (style_id : Nat) :
    Except GrammarError (List AccentPhrase) :=
  (parse_kana text).map (fun ps => env.update_length_and_pitch ps style_id)

/-- Embeds `accent_phrases` (POST /accent_phrases): dispatch on `is_kana`,
turning a grammar error into the 400 parse-error response that carries the
error unchanged. -/
def accent_phrases (env : Env) (text : String) (style_id : Nat) (is_kana : Bool) :
    Except ApiError (List AccentPhrase) :=
  if is_kana then
    match create_accent_phrases_from_kana env text style_id with
    | .ok ps => .ok ps
    | .error err => .error (.parseKanaBadRequest err)
  else
    .ok (env.create_accent_phrases text style_id)

/-- Python `str.zfill`: left-pad with zeros to the given width (no
truncation when already wider). -/
def zfill (s : String) (width : Nat) : String :=
  String.mk (List.replicate (width - s.length) '0') ++ s

/-- The zip entry name for 0-based batch index `i`:
`f"{str(i + 1).zfill(3)}.wav"`. -/
def entryName (i : Nat) : String :=
  zfill (toString (i + 1)) 3 ++ ".wav"

/-- The per-query loop of `multi_synthesis`: check the query's sampling
rate against the first query's, synthesize, and write the zip entry; a
mismatch aborts the whole request with the 422 error. -/
def multiSynthLoop (env : Env) (style_id : Nat) (rate : Nat) :
    List AudioQuery → Nat → Except ApiError (List (String × List ℚ))
  | [], _ => .ok []
  | q :: rest, i =>
    if q.outputSamplingRate ≠ rate then .error .inconsistentSamplingRate
    else
      let wave := env.synthesize_wave q style_id
      match multiSynthLoop env style_id rate rest (i + 1) with
      | .error e => .error e
      | .ok entries => .ok ((entryName i, wave) :: entries)

/-- Embeds `multi_synthesis` (POST /multi_synthesis): reads
`queries[0].outputSamplingRate` before any emptiness guard (IndexError on
an empty list), then runs the batch loop.  The result is the ordered list
of (entry name, waveform) pairs written into the zip archive. -/
def multi_synthesis (env : Env) (queries : List AudioQuery) (style_id : Nat) :
    Except ApiError (List (String × List ℚ)) :=
  match queries with
  | [] => .error .indexError
  | q0 :: _ => multiSynthLoop env style_id q0.outputSamplingRate queries 0

/-- The cancellable engine collaborator: `_synthesis_impl` returns the
result file name, or the empty string for an unknown core version. -/
structure CancellableEngine where
  synthesis_impl : AudioQuery → Nat → String

/-- Embeds `cancellable_synthesis` (POST /cancellable_synthesis).  The
second component counts backend synthesis invocations, so that failing
before any synthesis work is visible in the model. -/
def cancellable_synthesis (ce : Option CancellableEngine)
    (query : AudioQuery) (style_id : Nat) : Except ApiError String × Nat :=
  match ce with
  | none => (.error .cancellationUnsupported, 0)
  | some e =>
    let f := e.synthesis_impl query style_id
    (if f = "" then .error .unknownVersion else .ok f, 1)

/-- Modelled from the spec: `connect_base64_waves`
(utility/connect_base64_waves.py is not under `src/`) — WaveAssembler
concatenation: all inputs must carry one sampling rate; samples are
concatenated in input order with no gap inserted. -/
def concatenate : List (Nat × List ℚ) → Except ConnectWavesError (List ℚ × Nat)
  | [] => .error .noInput
  | (rate, w) :: rest =>
    if rest.all (fun x => decide (x.1 = rate)) then
      .ok (w ++ (rest.map Prod.snd).flatten, rate)
    else .error .sampleRateMismatch

/-- Embeds `connect_waves` (POST /connect_waves): the concatenation
utility's exception becomes the 422 response. -/
def connect_waves (waves : List (Nat × List ℚ)) : Except ApiError (List ℚ × Nat) :=
  match concatenate waves with
  | .error e => .error (.connectWavesFailed e)
  | .ok r => .ok r

/-- Embeds `validate_kana` (POST /validate_kana): parse, return `true` on
success, surface the grammar error as the 400 response otherwise. -/
def validate_kana (text : String) : Except ApiError Bool :=
  match parse_kana text with
  | .ok _ => .ok true
  | .error err => .error (.parseKanaBadRequest err)

/-- A mora is canonical when it arises from a mora-table entry, voiced or
unvoiced — exactly the morae the parser can build. -/
def CanonMora (m : Mora) : Prop :=
  ∃ c cons vow unv, lookupKana c = some (cons, vow) ∧ m = mkMora c cons vow unv

/-- The structural invariants of a parsed accent phrase: canonical morae,
at least one mora, accent nucleus within [1, number of morae]. -/
def PhraseCanon (p : AccentPhrase) : Prop :=
  (∀ m ∈ p.moras, CanonMora m) ∧ p.moras ≠ [] ∧
    1 ≤ p.accent ∧ p.accent ≤ p.moras.length

/-- Whether a string is exactly three decimal digits followed by ".wav". -/
def isThreeDigitWavName (s : String) : Bool :=
  s.data.length == 7 && (s.data.take 3).all Char.isDigit &&
    decide (s.data.drop 3 = String.data ".wav")

/-- A concrete backend environment used for witnesses: text analysis finds
no phrases, timing refinement is the identity, synthesis returns a
one-sample waveform tagged with the query's sampling rate. -/
def envW : Env :=
  { create_accent_phrases := fun _ _ => []
    update_length_and_pitch := fun ps _ => ps
    synthesize_wave := fun q _ => [(q.outputSamplingRate : ℚ)]
    default_sampling_rate := 24000 }

/-- A concrete query with the given output sampling rate, for witnesses. -/
def queryAtRate (r : Nat) : AudioQuery :=
  { accent_phrases := []
    speedScale := 1
    pitchScale := 0
    intonationScale := 1
    volumeScale := 1
    prePhonemeLength := 1/10
    postPhonemeLength := 1/10
    outputSamplingRate := r
    outputStereo := false
    kana := "" }

/-- The notation string of the specification example, §8 (with a nucleus
marker added to the middle segment, which the example text omits). -/
def sW : String :=
  String.mk ['コ', 'ン', 'ニ', 'チ', 'ワ', '\'', '/', 'ヨ', 'ロ', 'シ', 'ク',
             '\'', '、', 'ネ', '\'', '？']

/-- The accent phrases `sW` parses to. -/
def psW : List AccentPhrase :=
  [{ moras := [mkMora 'コ' (some "k") "o" false, mkMora 'ン' none "N" false,
               mkMora 'ニ' (some "n") "i" false, mkMora 'チ' (some "ch") "i" false,
               mkMora 'ワ' (some "w") "a" false]
     accent := 5
     pause_mora := none
     is_interrogative := false },
   { moras := [mkMora 'ヨ' (some "y") "o" false, mkMora 'ロ' (some "r") "o" false,
               mkMora 'シ' (some "sh") "i" false, mkMora 'ク' (some "k") "u" false]
     accent := 4
     pause_mora := some pauseMora
     is_interrogative := false },
   { moras := [mkMora 'ネ' (some "n") "e" false]
     accent := 1
     pause_mora := none
     is_interrogative := true }]

/-- Concrete presets for the preset-lookup witness. -/
def presetsW : List Preset :=
  [{ id := 7
     style_id := 2
     speedScale := 2
     pitchScale := 1/2
     intonationScale := 3/2
     volumeScale := 1/4
     prePhonemeLength := 1/5
     postPhonemeLength := 2/5 }]

/-! ## Theorems -/

/-- C2: for every backend, text and style id, `audio_query` returns the
default scale parameters (speed 1, pitch 0, intonation 1, volume 1, pre-
and post-phoneme silence 0.1 s), the backend's default sampling rate, and
a kana field equal to the serialization of the accent phrases produced by
backend text analysis. -/
theorem audio_query_default_values (env : Env) (text : String) (style_id : Nat) :
    (audio_query env text style_id).speedScale = 1 ∧
    (audio_query env text style_id).pitchScale = 0 ∧
    (audio_query env text style_id).intonationScale = 1 ∧
    (audio_query env text style_id).volumeScale = 1 ∧
    (audio_query env text style_id).prePhonemeLength = 1/10 ∧
    (audio_query env text style_id).postPhonemeLength = 1/10 ∧
    (audio_query env text style_id).outputSamplingRate = env.default_sampling_rate ∧
    (audio_query env text style_id).accent_phrases =
      env.create_accent_phrases text style_id ∧
    (audio_query env text style_id).kana =
      create_kana (env.create_accent_phrases text style_id) :=
  ⟨rfl, rfl, rfl, rfl, rfl, rfl, rfl, rfl, rfl⟩

/-- C6: when no cancellable engine is configured, every cancellable
synthesis request fails with the cancellation-unsupported error and zero
backend synthesis invocations — before any synthesis work is started. -/
theorem cancellable_synthesis_unsupported (query : AudioQuery) (style_id : Nat) :
    cancellable_synthesis none query style_id =
      (.error .cancellationUnsupported, 0) :=
  rfl

/-- C9: `multi_synthesis` on the empty query list fails with the unguarded
index error (the first query's sampling rate is read before any emptiness
check), which is distinct from the sampling-rate validation error. -/
theorem multi_synthesis_empty_index_error (env : Env) (style_id : Nat) :
    multi_synthesis env [] style_id = .error .indexError ∧
    ApiError.indexError ≠ ApiError.inconsistentSamplingRate :=
  ⟨rfl, by decide⟩

/-- C10: `validate_kana` never returns `false`: an accepted string yields
`true` and a rejected string surfaces the grammar error itself through the
error channel. -/
theorem validate_kana_never_false (text : String) :
    validate_kana text ≠ .ok false ∧
    (∀ ps, parse_kana text = .ok ps → validate_kana text = .ok true) ∧
    (∀ e, parse_kana text = .error e →
      validate_kana text = .error (.parseKanaBadRequest e)) := by
  refine ⟨?_, ?_, ?_⟩
  · unfold validate_kana
    cases h : parse_kana text <;> simp
  · intro ps h
    unfold validate_kana
    rw [h]
  · intro e h
    unfold validate_kana
    rw [h]

theorem validate_kana_never_false_witness :
    validate_kana (String.mk ['ア', '\'']) = .ok true ∧
    validate_kana (String.mk ['ヌ']) =
      .error (.parseKanaBadRequest (.missingAccentNucleus (String.mk ['ヌ']))) :=
  ⟨(validate_kana_never_false _).2.1
      [{ moras := [mkMora 'ア' none "a" false]
         accent := 1
         pause_mora := none
         is_interrogative := false }] (by decide),
   (validate_kana_never_false _).2.2
      (.missingAccentNucleus (String.mk ['ヌ'])) (by decide)⟩

/-- C5: `accent_phrases` dispatches to the grammar parser (followed by
backend timing refinement) when `is_kana` is true and to backend text
analysis when false; a grammar error is propagated to the caller unchanged
(same kind, fragment and offset) inside the parse-error response. -/
theorem accent_phrases_dispatch (env : Env) (text : String) (style_id : Nat) :
    accent_phrases env text style_id false =
      .ok (env.create_accent_phrases text style_id) ∧
    (∀ ps, parse_kana text = .ok ps →
      accent_phrases env text style_id true =
        .ok (env.update_length_and_pitch ps style_id)) ∧
    (∀ e, parse_kana text = .error e →
      accent_phrases env text style_id true =
        .error (.parseKanaBadRequest e)) := by
  refine ⟨rfl, ?_, ?_⟩
  · intro ps h
    simp [accent_phrases, create_accent_phrases_from_kana, h, Except.map]
  · intro e h
    simp [accent_phrases, create_accent_phrases_from_kana, h, Except.map]

theorem accent_phrases_dispatch_witness :
    accent_phrases envW (String.mk ['ア', '\'']) 0 true =
      .ok [{ moras := [mkMora 'ア' none "a" false]
             accent := 1
             pause_mora := none
             is_interrogative := false }] ∧
    accent_phrases envW (String.mk ['ヌ']) 0 true =
      .error (.parseKanaBadRequest (.missingAccentNucleus (String.mk ['ヌ']))) :=
  ⟨(accent_phrases_dispatch envW _ 0).2.1
      [{ moras := [mkMora 'ア' none "a" false]
         accent := 1
         pause_mora := none
         is_interrogative := false }] (by decide),
   (accent_phrases_dispatch envW _ 0).2.2
      (.missingAccentNucleus (String.mk ['ヌ'])) (by decide)⟩

theorem findPreset_eq_none {presets : List Preset} {pid : Int} :
    findPreset presets pid = none ↔ ∀ p ∈ presets, p.id ≠ pid := by
  induction presets with
  | nil => simp [findPreset]
  | cons p rest ih =>
    by_cases h : p.id = pid <;> simp [findPreset, h, ih]

theorem findPreset_some_of_mem {presets : List Preset} {pid : Int}
    (h : ∃ p ∈ presets, p.id = pid) :
    ∃ p, findPreset presets pid = some p ∧ p.id = pid := by
  induction presets with
  | nil => simp at h
  | cons q rest ih =>
    by_cases hq : q.id = pid
    · exact ⟨q, by simp [findPreset, hq], hq⟩
    · obtain ⟨p, hp, hid⟩ := h
      rcases List.mem_cons.mp hp with rfl | hmem
      · exact absurd hid hq
      · obtain ⟨p, h1, h2⟩ := ih ⟨p, hmem, hid⟩
        exact ⟨p, by simp [findPreset, hq, h1], h2⟩

/-- C3: `audio_query_from_preset` fails with the preset-not-found error
when no loaded preset has the requested id; when one exists, the returned
query's scale parameters are copied from the first matching preset, while
the sampling rate is the backend default and stereo is false. -/
theorem audio_query_from_preset_lookup (env : Env) (presets : List Preset)
    (text : String) (preset_id : Int) :
    ((∀ p ∈ presets, p.id ≠ preset_id) →
      audio_query_from_preset env (.ok presets) text preset_id =
        .error .presetNotFound) ∧
    ((∃ p ∈ presets, p.id = preset_id) →
      ∃ p, findPreset presets preset_id = some p ∧ p.id = preset_id) ∧
    (∀ p, findPreset presets preset_id = some p →
      ∃ q, audio_query_from_preset env (.ok presets) text preset_id = .ok q ∧
        q.speedScale = p.speedScale ∧
        q.pitchScale = p.pitchScale ∧
        q.intonationScale = p.intonationScale ∧
        q.volumeScale = p.volumeScale ∧
        q.prePhonemeLength = p.prePhonemeLength ∧
        q.postPhonemeLength = p.postPhonemeLength ∧
        q.outputSamplingRate = env.default_sampling_rate ∧
        q.outputStereo = false) := by
  refine ⟨?_, findPreset_some_of_mem, ?_⟩
  · intro h
    simp [audio_query_from_preset, findPreset_eq_none.mpr h]
  · intro p h
    refine ⟨{ accent_phrases := env.create_accent_phrases text p.style_id
              speedScale := p.speedScale
              pitchScale := p.pitchScale
              intonationScale := p.intonationScale
              volumeScale := p.volumeScale
              prePhonemeLength := p.prePhonemeLength
              postPhonemeLength := p.postPhonemeLength
              outputSamplingRate := env.default_sampling_rate
              outputStereo := false
              kana := create_kana (env.create_accent_phrases text p.style_id) },
            ?_, rfl, rfl, rfl, rfl, rfl, rfl, rfl, rfl⟩
    simp [audio_query_from_preset, h]

theorem audio_query_from_preset_lookup_witness :
    (audio_query_from_preset envW (.ok presetsW) (String.mk ['ア']) 3 =
      .error .presetNotFound) ∧
    (∃ q, audio_query_from_preset envW (.ok presetsW) (String.mk ['ア']) 7 =
        .ok q ∧ q.speedScale = 2 ∧ q.outputSamplingRate = 24000 ∧
        q.outputStereo = false) := by
  constructor
  · exact (audio_query_from_preset_lookup envW presetsW _ 3).1 (by decide)
  · obtain ⟨q, h1, h2, _, _, _, _, _, h8, h9⟩ :=
      (audio_query_from_preset_lookup envW presetsW (String.mk ['ア']) 7).2.2
        { id := 7
          style_id := 2
          speedScale := 2
          pitchScale := 1/2
          intonationScale := 3/2
          volumeScale := 1/4
          prePhonemeLength := 1/5
          postPhonemeLength := 2/5 } rfl
    exact ⟨q, h1, h2, h8, h9⟩

/-- C8: `connect_waves` fails with the sample-rate-mismatch error when the
input waveforms carry different sampling rates, and otherwise returns one
waveform — the input samples concatenated in input order with no gap — at
the common rate. -/
theorem connect_waves_concat (r : Nat) (w : List ℚ) (rest : List (Nat × List ℚ)) :
    ((∃ x ∈ rest, x.1 ≠ r) →
      connect_waves ((r, w) :: rest) =
        .error (.connectWavesFailed .sampleRateMismatch)) ∧
    ((∀ x ∈ rest, x.1 = r) →
      connect_waves ((r, w) :: rest) =
        .ok (w ++ (rest.map Prod.snd).flatten, r)) := by
  constructor
  · intro h
    have hall : ¬ rest.all (fun x => decide (x.1 = r)) := by
      simp only [List.all_eq_true, decide_eq_true_eq]
      push_neg
      exact h
    simp [connect_waves, concatenate, hall]
  · intro h
    have hall : rest.all (fun x => decide (x.1 = r)) := by
      simp only [List.all_eq_true, decide_eq_true_eq]
      exact h
    simp [connect_waves, concatenate, hall]

set_option maxRecDepth 4000 in
theorem connect_waves_concat_witness :
    (connect_waves [(24000, List.replicate 100 (0 : ℚ)),
                    (24000, List.replicate 200 (0 : ℚ))] =
      .ok (List.replicate 100 (0 : ℚ) ++ List.replicate 200 (0 : ℚ), 24000)) ∧
    (List.replicate 100 (0 : ℚ) ++ List.replicate 200 (0 : ℚ)).length = 300 ∧
    connect_waves [(24000, ([] : List ℚ)), (22050, ([] : List ℚ))] =
      .error (.connectWavesFailed .sampleRateMismatch) := by
  refine ⟨?_, by simp, ?_⟩
  · have h := (connect_waves_concat 24000 (List.replicate 100 (0 : ℚ))
      [(24000, List.replicate 200 (0 : ℚ))]).2 (by simp)
    simp only [List.map_cons, List.map_nil, List.flatten_cons, List.flatten_nil,
      List.append_nil] at h
    exact h
  · exact (connect_waves_concat 24000 ([] : List ℚ) [(22050, ([] : List ℚ))]).1
      ⟨(22050, ([] : List ℚ)), by simp, by decide⟩

theorem multiSynthLoop_uniform (env : Env) (style_id rate : Nat) :
    ∀ (qs : List AudioQuery) (i : Nat),
      (∀ q ∈ qs, q.outputSamplingRate = rate) →
      ∃ entries, multiSynthLoop env style_id rate qs i = .ok entries ∧
        entries.map Prod.snd = qs.map (fun q => env.synthesize_wave q style_id) ∧
        entries.map Prod.fst =
          (List.range qs.length).map (fun k => entryName (i + k)) := by
  intro qs
  induction qs with
  | nil => exact fun i _ => ⟨[], rfl, rfl, rfl⟩
  | cons q rest ih =>
    intro i h
    obtain ⟨es, h1, h2, h3⟩ := ih (i + 1) (fun p hp => h p (List.mem_cons_of_mem _ hp))
    refine ⟨(entryName i, env.synthesize_wave q style_id) :: es, ?_, ?_, ?_⟩
    · simp [multiSynthLoop, h q (List.mem_cons_self q rest), h1]
    · simp [h2]
    · simp only [List.map_cons, List.length_cons, List.range_succ_eq_map,
        List.map_map, h3]
      refine congrArg₂ _ (by simp) ?_
      apply List.map_congr_left
      intro k _
      simp only [Function.comp_apply]
      congr 1
      omega

theorem multiSynthLoop_mismatch (env : Env) (style_id rate : Nat) :
    ∀ (qs : List AudioQuery) (i : Nat),
      (∃ q ∈ qs, q.outputSamplingRate ≠ rate) →
      multiSynthLoop env style_id rate qs i = .error .inconsistentSamplingRate := by
  intro qs
  induction qs with
  | nil => intro i h; simp at h
  | cons q rest ih =>
    intro i h
    by_cases hq : q.outputSamplingRate = rate
    · have hrest : ∃ p ∈ rest, p.outputSamplingRate ≠ rate := by
        obtain ⟨p, hp, hne⟩ := h
        rcases List.mem_cons.mp hp with rfl | hm
        · exact absurd hq hne
        · exact ⟨p, hm, hne⟩
      simp [multiSynthLoop, hq, ih (i + 1) hrest]
    · simp [multiSynthLoop, hq]

/-- C1: `multi_synthesis` on a non-empty batch fails with the
inconsistent-sampling-rate error when some query's sampling rate differs
from the first query's, and otherwise succeeds with exactly one waveform
per query, in input order. -/
theorem multi_synthesis_batch_consistency (env : Env) (style_id : Nat)
    (q0 : AudioQuery) (qs : List AudioQuery) :
    ((∃ q ∈ q0 :: qs, q.outputSamplingRate ≠ q0.outputSamplingRate) →
      multi_synthesis env (q0 :: qs) style_id =
        .error .inconsistentSamplingRate) ∧
    ((∀ q ∈ q0 :: qs, q.outputSamplingRate = q0.outputSamplingRate) →
      ∃ entries, multi_synthesis env (q0 :: qs) style_id = .ok entries ∧
        entries.map Prod.snd =
          (q0 :: qs).map (fun q => env.synthesize_wave q style_id)) := by
  constructor
  · intro h
    exact multiSynthLoop_mismatch env style_id _ (q0 :: qs) 0 h
  · intro h
    obtain ⟨es, h1, h2, _⟩ :=
      multiSynthLoop_uniform env style_id _ (q0 :: qs) 0 h
    exact ⟨es, h1, h2⟩

theorem multi_synthesis_batch_consistency_witness :
    multi_synthesis envW
        [queryAtRate 24000, queryAtRate 24000, queryAtRate 22050] 0 =
      .error .inconsistentSamplingRate ∧
    ∃ entries,
      multi_synthesis envW
          [queryAtRate 24000, queryAtRate 24000, queryAtRate 24000] 0 =
        .ok entries ∧
      entries.map Prod.snd = [[(24000 : ℚ)], [(24000 : ℚ)], [(24000 : ℚ)]] := by
  constructor
  · exact (multi_synthesis_batch_consistency envW 0 _ _).1
      ⟨queryAtRate 22050, by simp, by decide⟩
  · obtain ⟨es, h1, h2⟩ := (multi_synthesis_batch_consistency envW 0
      (queryAtRate 24000) [queryAtRate 24000, queryAtRate 24000]).2 (by decide)
    refine ⟨es, h1, ?_⟩
    rw [h2]
    decide

/-- C7 (amended): for every accepted non-empty batch, the archive entries
are written in input order — the i-th entry (0-based i) holds the i-th
query's waveform — and the i-th entry is named `str(i + 1).zfill(3)`
followed by ".wav": the 1-based index left-padded with zeros to at least
three digits (so "001.wav", "002.wav", …, with four or more digits once
the index exceeds 999). -/
theorem multi_synthesis_entry_names (env : Env) (style_id : Nat)
    (q0 : AudioQuery) (qs : List AudioQuery)
    (h : ∀ q ∈ q0 :: qs, q.outputSamplingRate = q0.outputSamplingRate) :
    ∃ entries, multi_synthesis env (q0 :: qs) style_id = .ok entries ∧
      entries.map Prod.snd =
        (q0 :: qs).map (fun q => env.synthesize_wave q style_id) ∧
      entries.map Prod.fst = (List.range (q0 :: qs).length).map entryName ∧
      ∀ i, entryName i = zfill (toString (i + 1)) 3 ++ ".wav" := by
  obtain ⟨es, h1, h2, h3⟩ :=
    multiSynthLoop_uniform env style_id _ (q0 :: qs) 0 h
  refine ⟨es, h1, h2, ?_, fun i => rfl⟩
  rw [h3]
  apply List.map_congr_left
  intro k _
  rw [Nat.zero_add]

theorem multi_synthesis_entry_names_witness :
    ∃ entries,
      multi_synthesis envW [queryAtRate 24000, queryAtRate 24000] 0 =
        .ok entries ∧
      entries.map Prod.fst = ["001.wav", "002.wav"] := by
  obtain ⟨es, h1, _, h3, _⟩ := multi_synthesis_entry_names envW 0
    (queryAtRate 24000) [queryAtRate 24000] (by decide)
  refine ⟨es, h1, ?_⟩
  rw [h3]
  decide

/-- C7 (counterexample to the claim as stated): a batch of 1000 queries at
one sampling rate is accepted, and its 1000th entry is named "1000.wav" —
not a three-digit numeric name. -/
theorem multi_synthesis_three_digit_name_cex :
    ∃ entries,
      multi_synthesis envW (List.replicate 1000 (queryAtRate 24000)) 0 =
        .ok entries ∧
      (entries.map Prod.fst)[999]? = some "1000.wav" ∧
      isThreeDigitWavName "1000.wav" = false := by
  have hrep : List.replicate 1000 (queryAtRate 24000) =
      queryAtRate 24000 :: List.replicate 999 (queryAtRate 24000) := rfl
  obtain ⟨es, h1, _, h3, _⟩ := multi_synthesis_entry_names envW 0
    (queryAtRate 24000) (List.replicate 999 (queryAtRate 24000))
    (by
      intro q hq
      rcases List.mem_cons.mp hq with rfl | hm
      · rfl
      · rw [List.eq_of_mem_replicate hm])
  refine ⟨es, by rw [hrep]; exact h1, ?_, by decide⟩
  rw [h3]
  rw [List.getElem?_map]
  have hlen : (queryAtRate 24000 :: List.replicate 999 (queryAtRate 24000)).length
      = 1000 := by rw [List.length_cons, List.length_replicate]
  rw [hlen, List.getElem?_range (by omega : (999 : Nat) < 1000)]
  decide

/-! ### Round-trip of the kana grammar (C4) -/

theorem table_chars_ok : ∀ e ∈ moraTable,
    e.1 ≠ '？' ∧ e.1 ≠ '\'' ∧ e.1 ≠ '_' ∧ e.1 ≠ '/' ∧ e.1 ≠ '、' := by
  decide

theorem lookup_char_props {c : Char} {v : Option String × String}
    (h : lookupKana c = some v) :
    c ≠ '？' ∧ c ≠ '\'' ∧ c ≠ '_' ∧ c ≠ '/' ∧ c ≠ '、' := by
  unfold lookupKana at h
  cases hf : moraTable.find? (fun e => e.1 = c) with
  | none => rw [hf] at h; cases h
  | some e =>
    have hm := List.mem_of_find?_eq_some hf
    have hp := List.find?_some hf
    have hp2 : e.1 = c := by simpa using hp
    rw [← hp2]
    exact table_chars_ok e hm

theorem parseMoraeAux_nil (seg : String) (pos : Nat) (acc : List Mora)
    (accI : Option Nat) :
    parseMoraeAux seg [] pos acc accI = .ok (acc.reverse, accI, false) :=
  rfl

theorem parseMoraeAux_question (seg : String) (pos : Nat) (acc : List Mora)
    (accI : Option Nat) :
    parseMoraeAux seg ['？'] pos acc accI = .ok (acc.reverse, accI, true) := by
  rfl

theorem parseMoraeAux_accent (seg : String) (rest : List Char) (pos : Nat)
    (acc : List Mora) (hacc : acc ≠ []) :
    parseMoraeAux seg ('\'' :: rest) pos acc none =
      parseMoraeAux seg rest (pos + 1) acc (some acc.length) := by
  cases acc with
  | nil => exact absurd rfl hacc
  | cons a as =>
    conv_lhs => rw [parseMoraeAux.eq_def]
    simp [show ¬ (('\'' : Char) = '？') from by decide]

theorem parseMoraeAux_kana (seg : String) {c : Char} {cons : Option String}
    {vow : String} (rest : List Char) (pos : Nat) (acc : List Mora)
    (accI : Option Nat) (h : lookupKana c = some (cons, vow)) :
    parseMoraeAux seg (c :: rest) pos acc accI =
      parseMoraeAux seg rest (pos + 1) (mkMora c cons vow false :: acc) accI := by
  obtain ⟨h1, h2, h3, -, -⟩ := lookup_char_props h
  conv_lhs => rw [parseMoraeAux.eq_def]
  simp [h1, h2, h3, h]

theorem parseMoraeAux_unvoiced (seg : String) {c : Char} {cons : Option String}
    {vow : String} (rest : List Char) (pos : Nat) (acc : List Mora)
    (accI : Option Nat) (h : lookupKana c = some (cons, vow)) :
    parseMoraeAux seg ('_' :: c :: rest) pos acc accI =
      parseMoraeAux seg rest (pos + 2) (mkMora c cons vow true :: acc) accI := by
  conv_lhs => rw [parseMoraeAux.eq_def]
  simp [h, show ¬ (('_' : Char) = '？') from by decide,
    show ¬ (('_' : Char) = '\'') from by decide]

theorem moraChars_mk (c : Char) (cons : Option String) (vow : String)
    (unv : Bool) :
    moraChars (mkMora c cons vow unv) = (if unv then ['_'] else []) ++ [c] := by
  cases unv <;> simp [moraChars, mkMora, String.mk]

theorem parseMoraeAux_canon_append (seg : String) :
    ∀ (ms : List Mora), (∀ m ∈ ms, CanonMora m) →
    ∀ (rest : List Char) (pos : Nat) (acc : List Mora) (accI : Option Nat),
      parseMoraeAux seg (ms.flatMap moraChars ++ rest) pos acc accI =
        parseMoraeAux seg rest (pos + (ms.flatMap moraChars).length)
          (ms.reverse ++ acc) accI := by
  intro ms
  induction ms with
  | nil => intro _ rest pos acc accI; simp
  | cons m ms ih =>
    intro hc rest pos acc accI
    obtain ⟨c, cons, vow, unv, hl, hm⟩ := hc m (List.mem_cons_self m ms)
    subst hm
    have hrest := fun p hp => hc p (List.mem_cons_of_mem _ hp)
    cases unv
    · have hflat : (mkMora c cons vow false :: ms).flatMap moraChars =
          c :: ms.flatMap moraChars := by
        simp [moraChars_mk]
      rw [hflat, List.cons_append, parseMoraeAux_kana seg _ _ _ _ hl, ih hrest]
      simp [List.append_assoc, Nat.add_comm, Nat.add_assoc, Nat.add_left_comm]
    · have hflat : (mkMora c cons vow true :: ms).flatMap moraChars =
          '_' :: c :: ms.flatMap moraChars := by
        simp [moraChars_mk]
      rw [hflat, List.cons_append, List.cons_append,
        parseMoraeAux_unvoiced seg _ _ _ _ hl, ih hrest]
      simp [List.append_assoc, Nat.add_comm, Nat.add_assoc, Nat.add_left_comm]

theorem parseSeg_roundtrip (p : AccentPhrase) (hp : PhraseCanon p)
    (pos : Nat) (paused : Bool) :
    parseSeg (segChars p) pos paused =
      .ok { moras := p.moras
            accent := p.accent
            pause_mora := if paused then some pauseMora else none
            is_interrogative := p.is_interrogative } := by
  obtain ⟨hc, hne, ha1, ha2⟩ := hp
  have htake : ∀ m ∈ p.moras.take p.accent, CanonMora m :=
    fun m hm => hc m (List.take_subset _ _ hm)
  have hdrop : ∀ m ∈ p.moras.drop p.accent, CanonMora m :=
    fun m hm => hc m (List.drop_subset _ _ hm)
  have htakene : (p.moras.take p.accent).reverse ≠ [] := by
    simp only [ne_eq, List.reverse_eq_nil_iff, List.take_eq_nil_iff]
    push_neg
    exact ⟨by omega, hne⟩
  have hlen : (p.moras.take p.accent).reverse.length = p.accent := by
    simp only [List.length_reverse, List.length_take]
    omega
  have h1 : parseMoraeAux (String.mk (segChars p)) (segChars p) pos [] none =
      .ok (p.moras, some p.accent, p.is_interrogative) := by
    have hfix : segChars p =
        (p.moras.take p.accent).flatMap moraChars ++
          ('\'' :: ((p.moras.drop p.accent).flatMap moraChars ++
            (if p.is_interrogative then ['？'] else []))) := by
      simp [segChars, bodyChars, List.append_assoc]
    rw [hfix, parseMoraeAux_canon_append _ _ htake, List.append_nil,
      parseMoraeAux_accent _ _ _ _ htakene, hlen,
      parseMoraeAux_canon_append _ _ hdrop]
    cases hi : p.is_interrogative
    · rw [if_neg (by simp)]
      rw [parseMoraeAux_nil]
      simp [List.reverse_append, List.take_append_drop]
    · rw [if_pos rfl]
      rw [parseMoraeAux_question]
      simp [List.reverse_append, List.take_append_drop]
  unfold parseSeg
  rw [h1]
  simp [List.isEmpty_iff, hne]

theorem parseMoraeAux_inv (seg : String) (cs : List Char) (pos : Nat)
    (acc : List Mora) (accI : Option Nat) :
    ∀ (ms : List Mora) (accF : Option Nat) (intr : Bool),
      parseMoraeAux seg cs pos acc accI = .ok (ms, accF, intr) →
      (∀ m ∈ acc, CanonMora m) →
      (∀ a, accI = some a → 1 ≤ a ∧ a ≤ acc.length) →
      (∀ m ∈ ms, CanonMora m) ∧
      (∀ a, accF = some a → 1 ≤ a ∧ a ≤ ms.length) := by
  induction cs, pos, acc, accI using parseMoraeAux.induct seg with
  | case1 pos acc accI =>
    intro ms accF intr h hc hb
    rw [parseMoraeAux_nil] at h
    simp only [Except.ok.injEq, Prod.mk.injEq] at h
    obtain ⟨hms, haccF, -⟩ := h
    subst hms
    subst haccF
    refine ⟨fun m hm => hc m (List.mem_reverse.mp hm), ?_⟩
    intro a ha
    simpa [List.length_reverse] using hb a ha
  | case2 rest pos acc accI hemp =>
    intro ms accF intr h hc hb
    have hr : rest = [] := List.isEmpty_iff.mp hemp
    subst hr
    rw [parseMoraeAux_question] at h
    simp only [Except.ok.injEq, Prod.mk.injEq] at h
    obtain ⟨hms, haccF, -⟩ := h
    subst hms
    subst haccF
    refine ⟨fun m hm => hc m (List.mem_reverse.mp hm), ?_⟩
    intro a ha
    simpa [List.length_reverse] using hb a ha
  | case3 rest pos acc accI hemp =>
    intro ms accF intr h hc hb
    rw [parseMoraeAux.eq_def] at h
    simp [hemp] at h
  | case4 rest pos acc val hq =>
    intro ms accF intr h hc hb
    rw [parseMoraeAux.eq_def] at h
    simp [hq] at h
  | case5 rest pos acc hemp hq =>
    intro ms accF intr h hc hb
    rw [parseMoraeAux.eq_def] at h
    simp [hemp, hq] at h
  | case6 rest pos acc hemp hq ih =>
    intro ms accF intr h hc hb
    have hacc : acc ≠ [] := by simpa [List.isEmpty_iff] using hemp
    rw [parseMoraeAux_accent _ _ _ _ hacc] at h
    refine ih ms accF intr h hc ?_
    intro a ha
    have hae : acc.length = a := by simpa using ha
    subst hae
    exact ⟨List.length_pos.mpr hacc, Nat.le_refl _⟩
  | case7 pos acc accI h1 h2 =>
    intro ms accF intr h hc hb
    rw [parseMoraeAux.eq_def] at h
    simp [h1, h2] at h
  | case8 pos acc accI d rest2 cons vow hl h1 h2 ih =>
    intro ms accF intr h hc hb
    rw [parseMoraeAux_unvoiced _ _ _ _ _ hl] at h
    refine ih ms accF intr h ?_ ?_
    · intro m hm
      rcases List.mem_cons.mp hm with rfl | hm2
      · exact ⟨d, cons, vow, true, hl, rfl⟩
      · exact hc m hm2
    · intro a ha
      have := hb a ha
      simp only [List.length_cons]
      omega
  | case9 pos acc accI d rest2 hl h1 h2 =>
    intro ms accF intr h hc hb
    rw [parseMoraeAux.eq_def] at h
    simp [h1, h2, hl] at h
  | case10 c rest pos acc accI h1 h2 h3 cons vow hl ih =>
    intro ms accF intr h hc hb
    rw [parseMoraeAux_kana _ _ _ _ _ hl] at h
    refine ih ms accF intr h ?_ ?_
    · intro m hm
      rcases List.mem_cons.mp hm with rfl | hm2
      · exact ⟨c, cons, vow, false, hl, rfl⟩
      · exact hc m hm2
    · intro a ha
      have := hb a ha
      simp only [List.length_cons]
      omega
  | case11 c rest pos acc accI h1 h2 h3 hl =>
    intro ms accF intr h hc hb
    rw [parseMoraeAux.eq_def] at h
    simp [h1, h2, h3, hl] at h

theorem parseSeg_inv (cs : List Char) (pos : Nat) (paused : Bool)
    (p : AccentPhrase) (h : parseSeg cs pos paused = .ok p) :
    PhraseCanon p ∧
      p.pause_mora = (if paused then some pauseMora else none) := by
  unfold parseSeg at h
  cases haux : parseMoraeAux (String.mk cs) cs pos [] none with
  | error e => rw [haux] at h; simp at h
  | ok t =>
    obtain ⟨ms, accI, intr⟩ := t
    rw [haux] at h
    by_cases hemp : ms.isEmpty
    · simp [hemp] at h
    · cases accI with
      | none => simp [hemp] at h
      | some a =>
        simp only [hemp, Bool.false_eq_true, if_false, Except.ok.injEq] at h
        obtain ⟨hcanon, hbound⟩ := parseMoraeAux_inv (String.mk cs) cs pos [] none
          ms (some a) intr haux (by simp) (fun a ha => nomatch ha)
        have hms : ms ≠ [] := by simpa [List.isEmpty_iff] using hemp
        obtain ⟨ha1, ha2⟩ := hbound a rfl
        subst h
        exact ⟨⟨hcanon, hms, ha1, ha2⟩, rfl⟩

theorem splitSegAux_concat_last : ∀ (cs : List Char) (cur : List Char),
    ∃ segs0 lastcs, splitSegAux cs cur = segs0 ++ [(lastcs, false)] := by
  intro cs
  induction cs with
  | nil => exact fun cur => ⟨[], cur.reverse, rfl⟩
  | cons c rest ih =>
    intro cur
    by_cases h1 : c = '/'
    · obtain ⟨segs0, lastcs, hs⟩ := ih []
      exact ⟨(cur.reverse, false) :: segs0, lastcs, by simp [splitSegAux, h1, hs]⟩
    · by_cases h2 : c = '、'
      · obtain ⟨segs0, lastcs, hs⟩ := ih []
        exact ⟨(cur.reverse, true) :: segs0, lastcs,
          by simp [splitSegAux, h1, h2, hs]⟩
      · obtain ⟨segs0, lastcs, hs⟩ := ih (c :: cur)
        exact ⟨segs0, lastcs, by simp [splitSegAux, h1, h2, hs]⟩

theorem splitSegAux_through (xs : List Char)
    (hx : ∀ c ∈ xs, c ≠ '/' ∧ c ≠ '、') :
    ∀ cur, splitSegAux xs cur = [(cur.reverse ++ xs, false)] := by
  induction xs with
  | nil => intro cur; simp [splitSegAux]
  | cons c rest ih =>
    intro cur
    obtain ⟨h1, h2⟩ := hx c (List.mem_cons_self c rest)
    rw [splitSegAux.eq_def]
    simp only [h1, h2, if_false]
    rw [ih (fun d hd => hx d (List.mem_cons_of_mem _ hd)) (c :: cur)]
    simp

theorem splitSegAux_cut_slash (xs : List Char) (rest : List Char) :
    (∀ c ∈ xs, c ≠ '/' ∧ c ≠ '、') →
    ∀ cur, splitSegAux (xs ++ '/' :: rest) cur =
      (cur.reverse ++ xs, false) :: splitSegAux rest [] := by
  induction xs with
  | nil =>
    intro _ cur
    simp [splitSegAux]
  | cons c xs ih =>
    intro hx cur
    obtain ⟨h1, h2⟩ := hx c (List.mem_cons_self c xs)
    rw [List.cons_append, splitSegAux.eq_def]
    simp only [h1, h2, if_false]
    rw [ih (fun e he => hx e (List.mem_cons_of_mem _ he)) (c :: cur)]
    simp

theorem splitSegAux_cut_pause (xs : List Char) (rest : List Char) :
    (∀ c ∈ xs, c ≠ '/' ∧ c ≠ '、') →
    ∀ cur, splitSegAux (xs ++ '、' :: rest) cur =
      (cur.reverse ++ xs, true) :: splitSegAux rest [] := by
  induction xs with
  | nil =>
    intro _ cur
    simp [splitSegAux, show ¬ (('、' : Char) = '/') from by decide]
  | cons c xs ih =>
    intro hx cur
    obtain ⟨h1, h2⟩ := hx c (List.mem_cons_self c xs)
    rw [List.cons_append, splitSegAux.eq_def]
    simp only [h1, h2, if_false]
    rw [ih (fun e he => hx e (List.mem_cons_of_mem _ he)) (c :: cur)]
    simp

theorem moraChars_no_delim {m : Mora} (h : CanonMora m) :
    ∀ ch ∈ moraChars m, ch ≠ '/' ∧ ch ≠ '、' := by
  obtain ⟨c, cons, vow, unv, hl, rfl⟩ := h
  intro ch hch
  rw [moraChars_mk] at hch
  rcases List.mem_append.mp hch with h1 | h1
  · cases unv <;> simp at h1
    subst h1
    decide
  · simp at h1
    subst h1
    obtain ⟨-, -, -, h4, h5⟩ := lookup_char_props hl
    exact ⟨h4, h5⟩

theorem segChars_no_delim (p : AccentPhrase)
    (hc : ∀ m ∈ p.moras, CanonMora m) :
    ∀ ch ∈ segChars p, ch ≠ '/' ∧ ch ≠ '、' := by
  intro ch hch
  simp only [segChars, bodyChars, List.append_assoc, List.cons_append,
    List.mem_append, List.mem_cons] at hch
  rcases hch with h1 | h1 | h1
  · obtain ⟨m, hm, hmc⟩ := List.mem_flatMap.mp h1
    exact moraChars_no_delim (hc m (List.take_subset _ _ hm)) ch hmc
  · subst h1
    decide
  · rcases h1 with h2 | h2
    · obtain ⟨m, hm, hmc⟩ := List.mem_flatMap.mp h2
      exact moraChars_no_delim (hc m (List.drop_subset _ _ hm)) ch hmc
    · by_cases hi : p.is_interrogative
      · rw [if_pos hi] at h2
        simp at h2
        subst h2
        decide
      · rw [if_neg hi] at h2
        simp at h2

theorem segChars_ne_nil (p : AccentPhrase) : segChars p ≠ [] := by
  intro hEq
  simp only [segChars, bodyChars, List.append_assoc, List.append_eq_nil,
    List.cons_append] at hEq
  exact absurd hEq.2 (by simp)

theorem kanaChars_ne_nil : ∀ (ps : List AccentPhrase), ps ≠ [] →
    kanaChars ps ≠ [] := by
  intro ps hps
  cases ps with
  | nil => exact absurd rfl hps
  | cons p rest =>
    cases rest with
    | nil => exact segChars_ne_nil p
    | cons q rest2 =>
      simp only [kanaChars, ne_eq, List.append_eq_nil]
      intro hEq
      exact absurd hEq.2 (by simp)

theorem parseSegs_inv : ∀ (segs : List (List Char × Bool)) (pos : Nat)
    (ps : List AccentPhrase), parseSegs segs pos = .ok ps →
    (∀ p ∈ ps, PhraseCanon p) ∧
    ps.map AccentPhrase.pause_mora =
      segs.map (fun sg => if sg.2 then some pauseMora else none) := by
  intro segs
  induction segs with
  | nil =>
    intro pos ps h
    simp only [parseSegs, Except.ok.injEq] at h
    subst h
    simp
  | cons sg rest ih =>
    intro pos ps h
    obtain ⟨cs, paused⟩ := sg
    simp only [parseSegs] at h
    cases hseg : parseSeg cs pos paused with
    | error e => rw [hseg] at h; simp at h
    | ok p =>
      rw [hseg] at h
      cases hrest : parseSegs rest (pos + cs.length + 1) with
      | error e => rw [hrest] at h; simp at h
      | ok ps2 =>
        rw [hrest] at h
        simp only [Except.ok.injEq] at h
        subst h
        obtain ⟨hp1, hp2⟩ := parseSeg_inv cs pos paused p hseg
        obtain ⟨hr1, hr2⟩ := ih _ ps2 hrest
        constructor
        · intro q hq
          rcases List.mem_cons.mp hq with rfl | hq2
          · exact hp1
          · exact hr1 q hq2
        · simp [hp2, hr2]

theorem pause_of_map_concat : ∀ (ps : List AccentPhrase)
    (L : List (Option Mora)),
    ps.map AccentPhrase.pause_mora = L ++ [none] →
    ∃ ps0 plast, ps = ps0 ++ [plast] ∧ plast.pause_mora = none := by
  intro ps
  induction ps with
  | nil => intro L h; simp at h
  | cons p ps ih =>
    intro L h
    cases ps with
    | nil =>
      cases L with
      | nil =>
        simp only [List.map_cons, List.map_nil, List.nil_append,
          List.cons.injEq] at h
        exact ⟨[], p, rfl, h.1⟩
      | cons x xs => simp at h
    | cons q qs =>
      cases L with
      | nil => simp at h
      | cons x xs =>
        simp only [List.map_cons, List.cons_append, List.cons.injEq] at h
        obtain ⟨-, h2⟩ := h
        obtain ⟨ps0, plast, hps, hp⟩ := ih xs h2
        exact ⟨p :: ps0, plast, by rw [hps]; simp, hp⟩

theorem split_kanaChars : ∀ (ps : List AccentPhrase),
    (∀ p ∈ ps, ∀ ch ∈ segChars p, ch ≠ '/' ∧ ch ≠ '、') →
    (∀ p, ps.getLast? = some p → p.pause_mora = none) →
    ps ≠ [] →
    splitSegAux (kanaChars ps) [] =
      ps.map (fun p => (segChars p, p.pause_mora.isSome)) := by
  intro ps
  induction ps with
  | nil => intro _ _ h; exact absurd rfl h
  | cons p rest ih =>
    intro hnd hl _
    cases rest with
    | nil =>
      have hp : p.pause_mora = none := hl p rfl
      rw [show kanaChars [p] = segChars p from rfl]
      rw [splitSegAux_through (segChars p) (hnd p (List.mem_cons_self p [])) []]
      simp [hp]
    | cons q rest2 =>
      have hksplit : kanaChars (p :: q :: rest2) =
          segChars p ++ (if p.pause_mora.isSome then '、' else '/')
            :: kanaChars (q :: rest2) := rfl
      rw [hksplit]
      have hrec := ih (fun r hr => hnd r (List.mem_cons_of_mem _ hr))
        (fun r hr => hl r (by rw [List.getLast?_cons_cons]; exact hr))
        (by simp)
      cases hps : p.pause_mora.isSome
      · rw [if_neg (by simp [hps])]
        rw [splitSegAux_cut_slash _ _ (hnd p (List.mem_cons_self p _)) []]
        rw [hrec]
        simp [hps]
      · rw [if_pos (by simp [hps])]
        rw [splitSegAux_cut_pause _ _ (hnd p (List.mem_cons_self p _)) []]
        rw [hrec]
        simp [hps]

theorem parseSegs_roundtrip : ∀ (ps : List AccentPhrase) (pos : Nat),
    (∀ p ∈ ps, PhraseCanon p ∧
      (p.pause_mora = none ∨ p.pause_mora = some pauseMora)) →
    parseSegs (ps.map (fun p => (segChars p, p.pause_mora.isSome))) pos =
      .ok ps := by
  intro ps
  induction ps with
  | nil => intro pos _; rfl
  | cons p rest ih =>
    intro pos h
    obtain ⟨hp, hpa⟩ := h p (List.mem_cons_self p rest)
    have hseg := parseSeg_roundtrip p hp pos p.pause_mora.isSome
    have hback : (if p.pause_mora.isSome then some pauseMora else none) =
        p.pause_mora := by
      rcases hpa with h1 | h1 <;> simp [h1]
    rw [List.map_cons]
    simp only [parseSegs]
    rw [hseg,
      ih (pos + (segChars p).length + 1) (fun r hr => h r (List.mem_cons_of_mem _ hr))]
    obtain ⟨pm, pa, pp, pi⟩ := p
    simp only at hback
    simp [hback]

/-- C4: serialization is a right inverse of parsing — for every accepted
string, serializing its parse result yields a string the grammar accepts,
and parsing it gives an equal accent-phrase sequence. -/
theorem parse_create_kana_roundtrip (s : String) (ps : List AccentPhrase)
    (h : parse_kana s = .ok ps) :
    parse_kana (create_kana ps) = .ok ps := by
  unfold parse_kana at h
  by_cases hd : s.data = []
  · simp [hd] at h
  · rw [if_neg hd] at h
    obtain ⟨hcanon, hmap⟩ := parseSegs_inv (splitSegAux s.data []) 0 ps h
    obtain ⟨segs0, lcs, hsegs⟩ := splitSegAux_concat_last s.data []
    have hmap2 : ps.map AccentPhrase.pause_mora =
        segs0.map (fun sg => if sg.2 then some pauseMora else none) ++ [none] := by
      rw [hmap, hsegs]
      simp
    obtain ⟨ps0, plast, hpseq, hplast⟩ := pause_of_map_concat ps _ hmap2
    have hnodelim : ∀ p ∈ ps, ∀ ch ∈ segChars p, ch ≠ '/' ∧ ch ≠ '、' :=
      fun p hp => segChars_no_delim p (hcanon p hp).1
    have hpauses : ∀ p ∈ ps,
        p.pause_mora = none ∨ p.pause_mora = some pauseMora := by
      intro p hp
      have hmem : p.pause_mora ∈ ps.map AccentPhrase.pause_mora :=
        List.mem_map_of_mem _ hp
      rw [hmap] at hmem
      obtain ⟨sg, -, hv⟩ := List.mem_map.mp hmem
      by_cases h2 : sg.2
      · right; rw [← hv, if_pos h2]
      · left; rw [← hv, if_neg h2]
    have hlast : ∀ p, ps.getLast? = some p → p.pause_mora = none := by
      intro p hp
      rw [hpseq, List.getLast?_concat] at hp
      obtain rfl : plast = p := by simpa using hp
      exact hplast
    have hne : ps ≠ [] := by
      rw [hpseq]
      simp
    unfold parse_kana
    have hkc : (create_kana ps).data = kanaChars ps := rfl
    rw [hkc, if_neg (kanaChars_ne_nil ps hne),
      split_kanaChars ps hnodelim hlast hne]
    exact parseSegs_roundtrip ps 0 (fun p hp => ⟨hcanon p hp, hpauses p hp⟩)

theorem parse_create_kana_roundtrip_witness :
    parse_kana (create_kana psW) = .ok psW :=
  parse_create_kana_roundtrip sW psW (by decide)

end Voicevox
